import Mathlib

/-!
Verification of the hierarchical page-tree and block-list engine.

This file gives a shallow embedding of the page and block logic of the
repository (src/src/hooks/usePages.ts and src/src/hooks/useBlocks.ts,
together with the SQL schema defining cascade deletion), and proves the
testable properties stated in the specification against it.

Modelling conventions:
- The React state (the local cache) is passed explicitly as a list.
- The durable store is assumed to succeed; every operation returns the
  outcome, the new state, and the list of store calls it issued, so that
  "no store call on validation failure" is a provable statement.
- Server-assigned identifiers and timestamps are passed as parameters.
- JavaScript truthiness on nullable strings (null and the empty string
  are falsy) is modelled by the truthyStr function.
- The unbounded recursions of the source (the descendant collection and
  the ancestor walk) are modelled with explicit fuel; fuel adequacy on
  acyclic states is proved, and the ancestor walk returns none when the
  fuel is exhausted with the loop still running, which is how
  non-termination on a corrupt cyclic state is made visible.
-/

namespace DevNova

/-- The closed set of block types (BlockType in useBlocks.ts and the
SQL enum public.block_type). -/
inductive BlockType where
  | paragraph
  | heading1
  | heading2
  | heading3
  | bulleted_list
  | numbered_list
  | quote
  | code
  | divider
  | todo
deriving Repr, DecidableEq

/-- A page row (interface Page in usePages.ts). -/
structure Page where
  id : String
  user_id : String
  title : String
  icon : Option String
  cover_image : Option String
  parent_page_id : Option String
  is_favorite : Bool
  position : Int
  created_at : String
  updated_at : String
deriving Repr, DecidableEq

/-- A block row (interface Block in useBlocks.ts). -/
structure Block where
  id : String
  page_id : String
  type : BlockType
  content : String
  checked : Bool
  position : Int
  created_at : String
  updated_at : String
deriving Repr, DecidableEq

/-- Typed errors returned by the page operations. The source returns
JavaScript Error values with the messages noted on each constructor. -/
inductive PagesError where
  /-- "Not authenticated" -/
  | notAuthenticated
  /-- "Cannot move page to itself" -/
  | invalidMoveSelf
  /-- "Cannot move page to its descendant" -/
  | invalidMoveDescendant
  /-- A store-level failure: the updated row was not found. -/
  | storeNotFound
deriving Repr, DecidableEq

/-- Typed errors returned by the block operations. -/
inductive BlocksError where
  /-- "No page selected" -/
  | noPageSelected
  /-- A store-level failure: the updated row was not found. -/
  | blockStoreNotFound
deriving Repr, DecidableEq

/-- One call issued against the durable store. -/
inductive StoreCall where
  | pageInsert
  | pageUpdate (id : String)
  | pageDelete (id : String)
  | blockInsert
  | blockUpdate (id : String)
  | blockDelete (id : String)
deriving Repr, DecidableEq

/-- JavaScript truthiness of a nullable string: null and the empty
string are falsy. -/
def truthyStr : Option String → Bool
  | none => false
  | some s => !s.isEmpty

/-- The value actually inserted for parent_page_id by createPage:
the expression (parentPageId or null) maps every falsy argument
(null, undefined, the empty string) to null. -/
def normParent (parent : Option String) : Option String :=
  if truthyStr parent then parent else none

/-- getChildPages in usePages.ts: pages.filter(p with
p.parent_page_id strictly equal to parentId). No sorting is applied;
the cache order is kept. -/
def getChildPages (ps : List Page) (parentId : Option String) : List Page :=
  ps.filter (fun p => p.parent_page_id == parentId)

/-- The ids of the children of a page, in cache order. -/
def childIdsOf (ps : List Page) (pid : String) : List String :=
  (getChildPages ps (some pid)).map (fun p => p.id)

/-- The collectDescendants recursion used by deletePage and movePage:
add the page id, then recurse into every child. The source recursion is
unbounded; here it carries fuel, and fuel (ps.length + 1) is proved
sufficient on acyclic states (collectDescendants_complete). -/
def collectDescendants (ps : List Page) : Nat → String → List String
  | 0, pid => [pid]
  | n + 1, pid => pid :: (childIdsOf ps pid).flatMap (fun c => collectDescendants ps n c)

/-- The descendant-id set computed by the source (it contains the page
itself, since collectDescendants adds its argument first). -/
def descendantIds (ps : List Page) (pid : String) : List String :=
  collectDescendants ps (ps.length + 1) pid

/-- pages.find(p with p.id strictly equal to pid). -/
def findPage (ps : List Page) (pid : String) : Option Page :=
  ps.find? (fun p => p.id == pid)

/-- One test-and-lookup of the getAncestors while loop: when the
current page exists and has a truthy parent_page_id (JavaScript
truthiness: null, undefined and the empty string end the loop) and the
parent is found in the cache, the loop continues at that parent;
otherwise the loop exits. -/
def ancNext (ps : List Page) : Option Page → Option Page
  | none => none
  | some c =>
    match c.parent_page_id with
    | none => none
    | some pp => if pp == "" then none else findPage ps pp

/-- The while loop of getAncestors in usePages.ts: while ancNext yields
a parent, prepend it to the accumulator and continue from it. The
source loop is unbounded and tracks no visited set; the fuel argument
pays one unit per iteration, and the result none means the fuel ran out
with the loop still wanting to continue. -/
def ancestorsFuel (ps : List Page) : Nat → Option Page → List Page → Option (List Page)
  | fuel, cur, acc =>
    match ancNext ps cur with
    | none => some acc
    | some parent =>
      match fuel with
      | 0 => none
      | n + 1 => ancestorsFuel ps n (some parent) (parent :: acc)

/-- getAncestors in usePages.ts, run with fuel (ps.length + 1), which
is proved sufficient on acyclic states (ancestorsFuel_isSome). -/
def getAncestors (ps : List Page) (pid : String) : List Page :=
  (ancestorsFuel ps (ps.length + 1) (findPage ps pid) []).getD []

/-- The outcome of a page operation: the returned data or error, the
new local page cache, and the store calls issued (in order). -/
structure PagesResult where
  res : Except PagesError Page
  pages : List Page
  calls : List StoreCall
deriving Repr

/-- createPage in usePages.ts. Fails when no user is authenticated;
otherwise counts the siblings of the target parent (the root group when
the parent argument is falsy), inserts the new row, and appends it to
the cache. The store assigns newId and the timestamp ts. -/
def createPage (user : Option String) (ps : List Page) (title : String)
    (parent : Option String) (newId ts : String) : PagesResult :=
  match user with
  | none => ⟨Except.error PagesError.notAuthenticated, ps, []⟩
  | some uid =>
    let siblings :=
      if truthyStr parent then ps.filter (fun p => p.parent_page_id == parent)
      else ps.filter (fun p => !truthyStr p.parent_page_id)
    let newPage : Page :=
      { id := newId, user_id := uid, title := title, icon := none,
        cover_image := none, parent_page_id := normParent parent,
        is_favorite := false, position := Int.ofNat siblings.length,
        created_at := ts, updated_at := ts }
    ⟨Except.ok newPage, ps ++ [newPage], [StoreCall.pageInsert]⟩

/-- The partial update accepted by updatePage (Partial Pick of title,
icon, cover_image, is_favorite, position, parent_page_id). A field set
to none is absent from the update. -/
structure PageUpdates where
  title : Option String
  icon : Option (Option String)
  cover_image : Option (Option String)
  is_favorite : Option Bool
  position : Option Int
  parent_page_id : Option (Option String)
deriving Repr, DecidableEq

/-- Application of a partial update to a page row; the updated_at
timestamp is refreshed by the store trigger. -/
def applyPageUpdates (p : Page) (u : PageUpdates) (ts : String) : Page :=
  { p with
    title := u.title.getD p.title,
    icon := u.icon.getD p.icon,
    cover_image := u.cover_image.getD p.cover_image,
    is_favorite := u.is_favorite.getD p.is_favorite,
    position := u.position.getD p.position,
    parent_page_id := u.parent_page_id.getD p.parent_page_id,
    updated_at := ts }

/-- updatePage in usePages.ts: the store updates the row with the given
id and returns it; on success the cache replaces every entry carrying
that id by the returned row (no re-sort). When no row matches, the
single() call fails and the cache is untouched. -/
def updatePage (ps : List Page) (id : String) (u : PageUpdates) (ts : String) : PagesResult :=
  match findPage ps id with
  | none => ⟨Except.error PagesError.storeNotFound, ps, [StoreCall.pageUpdate id]⟩
  | some p =>
    let updated := applyPageUpdates p u ts
    ⟨Except.ok updated, ps.map (fun q => if q.id == id then updated else q),
      [StoreCall.pageUpdate id]⟩

/-- The outcome of deletePage: the pruned page cache, the surviving
store blocks, and the store calls issued. -/
structure DeleteResult where
  pages : List Page
  blocks : List Block
  calls : List StoreCall
deriving Repr

/-- deletePage in usePages.ts: the descendant closure (the page and all
transitive descendants) is computed before the delete is issued, and the
cache is pruned of exactly that set. The fate of the block rows is
modelled from the SQL schema (part_000): blocks.page_id references
pages(id) ON DELETE CASCADE and pages.parent_page_id references
pages(id) ON DELETE CASCADE, so the store removes the blocks of every
deleted page; on acyclic states the cascaded set coincides with the
computed closure (collectDescendants_complete / collectDescendants_sound). -/
def deletePage (ps : List Page) (bs : List Block) (id : String) : DeleteResult :=
  let descIds := descendantIds ps id
  ⟨ps.filter (fun p => !(descIds.contains p.id)),
   bs.filter (fun b => !(descIds.contains b.page_id)),
   [StoreCall.pageDelete id]⟩

/-- The partial update passed to updatePage by movePage. -/
def moveUpdates (newParentId : Option String) : PageUpdates :=
  ⟨none, none, none, none, none, some newParentId⟩

/-- movePage in usePages.ts. Validates, in order: the target must not
be the page itself, and a truthy target must not be a member of the
computed descendant set; only then it delegates to updatePage. -/
def movePage (ps : List Page) (pageId : String) (newParentId : Option String)
    (ts : String) : PagesResult :=
  if newParentId == some pageId then
    ⟨Except.error PagesError.invalidMoveSelf, ps, []⟩
  else if truthyStr newParentId && (descendantIds ps pageId).contains (newParentId.getD "") then
    ⟨Except.error PagesError.invalidMoveDescendant, ps, []⟩
  else
    updatePage ps pageId (moveUpdates newParentId) ts

/-- The comparator of the cache sorts in useBlocks.ts,
(a, b) => a.position - b.position: a may stay before b exactly when the
difference is nonpositive. -/
def posLe (a b : Block) : Prop :=
  a.position ≤ b.position

instance : DecidableRel posLe :=
  fun a b => inferInstanceAs (Decidable (a.position ≤ b.position))

instance : IsTotal Block posLe :=
  ⟨fun a b => Int.le_total a.position b.position⟩

instance : IsTrans Block posLe :=
  ⟨fun _ _ _ => Int.le_trans⟩

/-- The sort by ascending position applied to the block cache.
Array.prototype.sort is a stable sort; it is modelled by stable
insertion sort. -/
def sortByPosition (l : List Block) : List Block :=
  l.insertionSort posLe

/-- The block state: the React cache for the selected page, and the
durable rows of that page. -/
structure BlocksState where
  cache : List Block
  store : List Block
deriving Repr, DecidableEq

/-- The outcome of a block operation. -/
structure BlocksResult where
  res : Except BlocksError Block
  st : BlocksState
  calls : List StoreCall
deriving Repr

/-- createBlock in useBlocks.ts. Fails when no page is selected; the
position defaults (nullish coalescing) to the cache length; on success
the new row is appended to the store, and the cache is merged and
re-sorted by position. -/
def createBlock (pageId : Option String) (st : BlocksState) (type : BlockType)
    (content : String) (position : Option Int) (newId ts : String) : BlocksResult :=
  match pageId with
  | none => ⟨Except.error BlocksError.noPageSelected, st, []⟩
  | some pg =>
    let newPosition := position.getD (Int.ofNat st.cache.length)
    let nb : Block :=
      { id := newId, page_id := pg, type := type, content := content,
        checked := false, position := newPosition, created_at := ts, updated_at := ts }
    ⟨Except.ok nb, ⟨sortByPosition (st.cache ++ [nb]), st.store ++ [nb]⟩,
      [StoreCall.blockInsert]⟩

/-- The partial update accepted by updateBlock (Partial Pick of type,
content, checked, position). -/
structure BlockUpdates where
  type : Option BlockType
  content : Option String
  checked : Option Bool
  position : Option Int
deriving Repr, DecidableEq

/-- Application of a partial update to a block row; updated_at is
refreshed by the store trigger. -/
def applyBlockUpdates (b : Block) (u : BlockUpdates) (ts : String) : Block :=
  { b with
    type := u.type.getD b.type,
    content := u.content.getD b.content,
    checked := u.checked.getD b.checked,
    position := u.position.getD b.position,
    updated_at := ts }

/-- updateBlock in useBlocks.ts: the store updates the row with the
given id and returns it; on success the cache replaces that entry and
is re-sorted by position. -/
def updateBlock (st : BlocksState) (id : String) (u : BlockUpdates) (ts : String) : BlocksResult :=
  match st.store.find? (fun b => b.id == id) with
  | none => ⟨Except.error BlocksError.blockStoreNotFound, st, [StoreCall.blockUpdate id]⟩
  | some b =>
    let updated := applyBlockUpdates b u ts
    ⟨Except.ok updated,
      ⟨sortByPosition (st.cache.map (fun q => if q.id == id then updated else q)),
       st.store.map (fun q => if q.id == id then updated else q)⟩,
      [StoreCall.blockUpdate id]⟩

/-- insertBlockAfter in useBlocks.ts: locate the reference block in the
cache; when absent, degrade to a plain create (append). Otherwise issue
one raw store update per block strictly after that index, setting its
position to its cached position plus one (the cache itself is not
updated by these raw calls), then create the new block at the index of
the reference block plus one. -/
def insertBlockAfter (pageId : Option String) (st : BlocksState) (afterId : String)
    (type : BlockType) (newId ts : String) : BlocksResult :=
  match st.cache.findIdx? (fun b => b.id == afterId) with
  | none => createBlock pageId st type "" none newId ts
  | some i =>
    let toShift := st.cache.drop (i + 1)
    let store2 := toShift.foldl
      (fun acc b => acc.map (fun q =>
        if q.id == b.id then { q with position := b.position + 1, updated_at := ts } else q))
      st.store
    let r := createBlock pageId ⟨st.cache, store2⟩ type "" (some (Int.ofNat (i + 1))) newId ts
    ⟨r.res, r.st, toShift.map (fun b => StoreCall.blockUpdate b.id) ++ r.calls⟩

/-- The fetch performed by useBlocks (BlockList.list): the rows of the
page, ordered by ascending position; empty when no page is selected. -/
def listBlocks (store : List Block) (pageId : Option String) : List Block :=
  match pageId with
  | none => []
  | some pg => sortByPosition (store.filter (fun b => b.page_id == pg))

/-- The parent/child edge relation of a page set: childOf ps a b holds
when some page of ps has id b and parent_page_id a, that is, b is a
child of a. -/
def childOf (ps : List Page) (a b : String) : Prop :=
  ∃ q ∈ ps, q.id = b ∧ q.parent_page_id = some a

/-- A page set is acyclic when no id can reach itself by following
child edges (equivalently, no page is its own ancestor). -/
def Acyclic (ps : List Page) : Prop :=
  ∀ x, ¬ Relation.TransGen (childOf ps) x x

/-- The proper descendants of an id. -/
def descSet (ps : List Page) (pid : String) : Set String :=
  {x | Relation.TransGen (childOf ps) pid x}

/-- A rank function that strictly decreases from child to parent proves
acyclicity; used to discharge acyclicity at concrete page sets. -/
def RankOk (ps : List Page) (rank : String → Nat) : Prop :=
  ∀ q ∈ ps, (match q.parent_page_id with
    | none => True
    | some pp => rank pp < rank q.id)

/-- The strict ancestors of an id. -/
def ancSet (ps : List Page) (y : String) : Set String :=
  {x | Relation.TransGen (childOf ps) x y}

/-- One create or move operation on the page set. The hypotheses of the
create step model the freshness of a server-generated UUID: the new id
is nonempty, is not an existing id, and is referenced by no
parent_page_id (existing or inserted). Failed moves are included (they
leave the set unchanged); a create with no authenticated user also
leaves the set unchanged and is subsumed by reflexivity. -/
inductive PStep : List Page → List Page → Prop
  | create (ps : List Page) (uid title : String) (parent : Option String) (newId ts : String)
      (h1 : newId ∉ ps.map Page.id)
      (h2 : ∀ q ∈ ps, q.parent_page_id ≠ some newId)
      (h3 : normParent parent ≠ some newId)
      (h4 : newId ≠ "") :
      PStep ps (createPage (some uid) ps title parent newId ts).pages
  | move (ps : List Page) (pid : String) (np : Option String) (ts : String) :
      PStep ps (movePage ps pid np ts).pages

/-- The structural well-formedness invariant: no page is its own
ancestor, and page ids are nonempty (they are server-generated UUIDs). -/
def WFPages (ps : List Page) : Prop :=
  Acyclic ps ∧ ∀ q ∈ ps, q.id ≠ ""

def c5CycA : Page := ⟨"p1", "u", "A", none, none, some "p2", false, 0, "t", "t"⟩

def c5CycB : Page := ⟨"p2", "u", "B", none, none, some "p1", false, 0, "t", "t"⟩

def c5CycPages : List Page := [c5CycA, c5CycB]

def c2Root : Page := ⟨"r", "u", "Root", none, none, none, false, 0, "t", "t"⟩

def c2Child : Page := ⟨"c", "u", "Child", none, none, some "r", false, 0, "t", "t"⟩

def c8Root : Page := ⟨"r8", "u", "Root", none, none, none, false, 0, "t", "t"⟩

def c8Child : Page := ⟨"c8", "u", "Child", none, none, some "r8", false, 0, "t", "t"⟩

/-- The call with the title argument omitted: the JavaScript default
parameter supplies the string Untitled. -/
def createPageDefault (user : Option String) (ps : List Page)
    (parent : Option String) (newId ts : String) : PagesResult :=
  createPage user ps "Untitled" parent newId ts

/-- The stored title of a successful page operation. -/
def resultTitle (r : PagesResult) : Option String :=
  match r.res with
  | Except.ok p => some p.title
  | Except.error _ => none

/-- The stored parent of a successful page operation. -/
def resParent (r : PagesResult) : Option (Option String) :=
  match r.res with
  | Except.ok p => some p.parent_page_id
  | Except.error _ => none

def c10Page : Page := ⟨"m", "u", "M", none, none, some "x", false, 0, "t", "t"⟩

def c3B0 : Block := ⟨"b0", "pg", BlockType.paragraph, "alpha", false, 0, "t0", "t0"⟩

def c3B1 : Block := ⟨"b1", "pg", BlockType.paragraph, "beta", false, 1, "t0", "t0"⟩

def c3B2 : Block := ⟨"b2", "pg", BlockType.paragraph, "gamma", false, 2, "t0", "t0"⟩

def c3State : BlocksState := ⟨[c3B0, c3B1, c3B2], [c3B0, c3B1, c3B2]⟩

def c3New : Block := ⟨"bn", "pg", BlockType.paragraph, "", false, 2, "t1", "t1"⟩

def c4PgA : Page := ⟨"a4", "u", "A", none, none, none, false, 0, "t0", "t0"⟩

def c4PgB : Page := ⟨"b4", "u", "B", none, none, none, false, 1, "t0", "t0"⟩

def c4PosUpd : PageUpdates := ⟨none, none, none, none, some 5, none⟩

def c4BlockX : Block := ⟨"x", "pg", BlockType.todo, "buy milk", false, 0, "t0", "t0"⟩

def c4BlockY : Block := ⟨"y", "pg", BlockType.paragraph, "note", false, 1, "t0", "t0"⟩

def c4StW : BlocksState := ⟨[c4BlockX, c4BlockY], [c4BlockX, c4BlockY]⟩

def c4UpdW : BlockUpdates := ⟨none, none, some true, none⟩

def c6Root : Page := ⟨"r6", "u", "Root", none, none, none, false, 0, "t", "t"⟩

def c6Child : Page := ⟨"c6", "u", "Child", none, none, some "r6", false, 0, "t", "t"⟩

def c6Other : Page := ⟨"o6", "u", "Other", none, none, none, false, 1, "t", "t"⟩

def c6Blocks : List Block :=
  [⟨"k1", "c6", BlockType.paragraph, "body", false, 0, "t", "t"⟩,
   ⟨"k2", "o6", BlockType.paragraph, "kept", false, 0, "t", "t"⟩]

theorem mem_childIdsOf {ps : List Page} {pid c : String} :
    c ∈ childIdsOf ps pid ↔ ∃ q, q ∈ ps ∧ q.parent_page_id = some pid ∧ q.id = c := by
  simp [childIdsOf, getChildPages, List.mem_map, List.mem_filter, beq_iff_eq]
  constructor
  · rintro ⟨q, ⟨hq, hpar⟩, hid⟩
    exact ⟨q, hq, hpar, hid⟩
  · rintro ⟨q, hq, hpar, hid⟩
    exact ⟨q, ⟨hq, hpar⟩, hid⟩

theorem collectDescendants_sound {ps : List Page} :
    ∀ {n : Nat} {pid x : String}, x ∈ collectDescendants ps n pid →
      Relation.ReflTransGen (childOf ps) pid x := by
  intro n
  induction n with
  | zero =>
    intro pid x hx
    simp [collectDescendants] at hx
    exact hx ▸ Relation.ReflTransGen.refl
  | succ n ih =>
    intro pid x hx
    simp only [collectDescendants, List.mem_cons, List.mem_flatMap] at hx
    rcases hx with rfl | ⟨c, hc, hx⟩
    · exact Relation.ReflTransGen.refl
    · rcases mem_childIdsOf.mp hc with ⟨q, hq, hpar, hid⟩
      exact Relation.ReflTransGen.head ⟨q, hq, hid, hpar⟩ (ih hx)

theorem descSet_subset {ps : List Page} {pid : String} :
    descSet ps pid ⊆ {x | x ∈ ps.map Page.id} := by
  intro x hx
  have hlast : ∃ a, childOf ps a x := by
    cases hx with
    | single e => exact ⟨_, e⟩
    | tail _ e => exact ⟨_, e⟩
  rcases hlast with ⟨a, q, hq, hid, _⟩
  simpa using ⟨q, hq, hid⟩

theorem descSet_finite {ps : List Page} {pid : String} : (descSet ps pid).Finite :=
  (List.finite_toSet (ps.map Page.id)).subset descSet_subset

theorem descSet_ncard_lt {ps : List Page} {pid c : String}
    (hA : Acyclic ps) (e : childOf ps pid c) :
    (descSet ps c).ncard < (descSet ps pid).ncard := by
  have hsub : descSet ps c ⊆ descSet ps pid := by
    intro x hx
    exact Relation.TransGen.head e hx
  have hss : descSet ps c ⊂ descSet ps pid := by
    rw [ssubset_iff_subset_not_subset]
    refine ⟨hsub, fun hts => ?_⟩
    exact hA c (hts (Relation.TransGen.single e))
  exact Set.ncard_lt_ncard hss descSet_finite

theorem collectDescendants_complete {ps : List Page} (hA : Acyclic ps) :
    ∀ {n : Nat} {pid x : String}, (descSet ps pid).ncard < n →
      Relation.ReflTransGen (childOf ps) pid x → x ∈ collectDescendants ps n pid := by
  intro n
  induction n with
  | zero => intro pid x h; omega
  | succ n ih =>
    intro pid x hcard hx
    rcases hx.cases_head with rfl | ⟨c, e, hrest⟩
    · simp [collectDescendants]
    · simp only [collectDescendants, List.mem_cons, List.mem_flatMap]
      refine Or.inr ⟨c, ?_, ?_⟩
      · rcases e with ⟨q, hq, hid, hpar⟩
        exact mem_childIdsOf.mpr ⟨q, hq, hpar, hid⟩
      · have hlt := descSet_ncard_lt hA e
        exact ih (by omega) hrest

theorem descSet_ncard_le {ps : List Page} {pid : String} :
    (descSet ps pid).ncard ≤ ps.length := by
  have h1 : (descSet ps pid).ncard ≤ ({x | x ∈ ps.map Page.id} : Set String).ncard :=
    Set.ncard_le_ncard descSet_subset (List.finite_toSet _)
  have h2 : ({x | x ∈ ps.map Page.id} : Set String).ncard ≤ ps.length := by
    rw [← List.coe_toFinset, Set.ncard_coe_Finset]
    calc (ps.map Page.id).toFinset.card ≤ (ps.map Page.id).length :=
          List.toFinset_card_le _
      _ = ps.length := List.length_map _ _
  omega

/-- On an acyclic page set the bounded descendant computation is exact:
it contains precisely the ids reachable from the argument by child
edges (the argument itself included). -/
theorem mem_descendantIds {ps : List Page} (hA : Acyclic ps) {pid x : String} :
    x ∈ descendantIds ps pid ↔ Relation.ReflTransGen (childOf ps) pid x := by
  constructor
  · exact collectDescendants_sound
  · intro hx
    have : (descSet ps pid).ncard < ps.length + 1 := by
      have := @descSet_ncard_le ps pid
      omega
    exact collectDescendants_complete hA this hx

theorem acyclic_of_rank {ps : List Page} (rank : String → Nat)
    (h : RankOk ps rank) : Acyclic ps := by
  have edge : ∀ a b, childOf ps a b → rank a < rank b := by
    rintro a b ⟨q, hq, hid, hpar⟩
    have := h q hq
    rw [hpar] at this
    simpa [hid] using this
  have mono : ∀ a b, Relation.TransGen (childOf ps) a b → rank a < rank b := by
    intro a b h
    induction h with
    | single e => exact edge _ _ e
    | tail _ e ih => exact lt_trans ih (edge _ _ e)
  intro x hx
  exact lt_irrefl _ (mono x x hx)

theorem ancestorsFuel_exit {ps : List Page} {cur : Option Page}
    (h : ancNext ps cur = none) (fuel : Nat) (acc : List Page) :
    ancestorsFuel ps fuel cur acc = some acc := by
  rw [ancestorsFuel, h]

theorem ancestorsFuel_stuck {ps : List Page} {cur : Option Page} {parent : Page}
    (h : ancNext ps cur = some parent) (acc : List Page) :
    ancestorsFuel ps 0 cur acc = none := by
  rw [ancestorsFuel, h]

theorem ancestorsFuel_step {ps : List Page} {cur : Option Page} {parent : Page}
    (h : ancNext ps cur = some parent) (n : Nat) (acc : List Page) :
    ancestorsFuel ps (n + 1) cur acc = ancestorsFuel ps n (some parent) (parent :: acc) := by
  rw [ancestorsFuel, h]

/-- Inversion of one loop step: a successful ancNext means the current
page exists, its parent_page_id is truthy, and the parent was found. -/
theorem ancNext_some {ps : List Page} {cur : Option Page} {parent : Page}
    (h : ancNext ps cur = some parent) :
    ∃ c, cur = some c ∧ ∃ pp, c.parent_page_id = some pp ∧ pp ≠ "" ∧
      findPage ps pp = some parent := by
  cases cur with
  | none => simp [ancNext] at h
  | some c =>
    refine ⟨c, rfl, ?_⟩
    rcases hpp : c.parent_page_id with _ | pp
    · simp [ancNext, hpp] at h
    · simp only [ancNext, hpp] at h
      by_cases hemp : pp = ""
      · simp [hemp] at h
      · rw [if_neg (by simp [hemp])] at h
        exact ⟨pp, rfl, hemp, h⟩

/-- The edge established by one successful loop step: the found parent
is a parent of the current page (when the current page is in the set). -/
theorem ancNext_edge {ps : List Page} {c parent : Page}
    (h : ancNext ps (some c) = some parent) (hc : c ∈ ps) :
    childOf ps parent.id c.id := by
  rcases ancNext_some h with ⟨c2, hc2, pp, hpp, _, hf⟩
  cases hc2
  have hpid : parent.id = pp := by
    have := List.find?_some hf
    rwa [beq_iff_eq] at this
  exact ⟨c, hc, rfl, by rw [hpp, hpid]⟩

theorem ancestorsFuel_sound {ps : List Page} {p0 : String} :
    ∀ {n : Nat} {cur : Option Page} {acc l : List Page},
      (∀ c, cur = some c → c ∈ ps ∧ Relation.ReflTransGen (childOf ps) c.id p0) →
      (∀ q ∈ acc, Relation.TransGen (childOf ps) q.id p0) →
      ancestorsFuel ps n cur acc = some l →
      ∀ q ∈ l, Relation.TransGen (childOf ps) q.id p0 := by
  intro n
  induction n with
  | zero =>
    intro cur acc l hcur hacc heq
    rcases hnext : ancNext ps cur with _ | parent
    · rw [ancestorsFuel_exit hnext] at heq
      cases heq
      exact hacc
    · rw [ancestorsFuel_stuck hnext] at heq
      cases heq
  | succ n ih =>
    intro cur acc l hcur hacc heq
    rcases hnext : ancNext ps cur with _ | parent
    · rw [ancestorsFuel_exit hnext] at heq
      cases heq
      exact hacc
    · rw [ancestorsFuel_step hnext] at heq
      rcases ancNext_some hnext with ⟨c, rfl, pp, hpp, hemp, hf⟩
      have hcps := (hcur c rfl).1
      have hreach := (hcur c rfl).2
      have hedge : childOf ps parent.id c.id := ancNext_edge hnext hcps
      refine ih ?_ ?_ heq
      · intro c2 hc2
        cases hc2
        exact ⟨List.mem_of_find?_eq_some hf,
          Relation.ReflTransGen.head hedge hreach⟩
      · intro q hq
        rcases List.mem_cons.mp hq with rfl | hq2
        · exact Relation.TransGen.head' hedge hreach
        · exact hacc q hq2

/-- Every member of the ancestors list returned by getAncestors is a
strict ancestor of the requested page id. -/
theorem getAncestors_mem {ps : List Page} {pid : String} :
    ∀ q ∈ getAncestors ps pid, Relation.TransGen (childOf ps) q.id pid := by
  intro q hq
  unfold getAncestors at hq
  rcases heq : ancestorsFuel ps (ps.length + 1) (findPage ps pid) [] with _ | l
  · rw [heq] at hq
    simp at hq
  · rw [heq] at hq
    simp only [Option.getD_some] at hq
    refine ancestorsFuel_sound ?_ ?_ heq q hq
    · intro c hc
      refine ⟨List.mem_of_find?_eq_some hc, ?_⟩
      have : c.id = pid := by
        have := List.find?_some hc
        rwa [beq_iff_eq] at this
      rw [this]
    · intro q hq
      simp at hq

theorem ancSet_subset {ps : List Page} {y : String} :
    ancSet ps y ⊆ {x | x ∈ ps.filterMap Page.parent_page_id} := by
  intro x hx
  have : ∀ b, Relation.TransGen (childOf ps) x b → x ∈ ps.filterMap Page.parent_page_id := by
    intro b h
    induction h with
    | single e =>
      rcases e with ⟨q, hq, _, hpar⟩
      simp only [List.mem_filterMap]
      exact ⟨q, hq, hpar⟩
    | tail _ _ ih => exact ih
  exact this y hx

theorem ancSet_finite {ps : List Page} {y : String} : (ancSet ps y).Finite :=
  (List.finite_toSet (ps.filterMap Page.parent_page_id)).subset ancSet_subset

theorem ancSet_ncard_le {ps : List Page} {y : String} :
    (ancSet ps y).ncard ≤ ps.length := by
  have h1 : (ancSet ps y).ncard ≤
      ({x | x ∈ ps.filterMap Page.parent_page_id} : Set String).ncard :=
    Set.ncard_le_ncard ancSet_subset (List.finite_toSet _)
  have h2 : ({x | x ∈ ps.filterMap Page.parent_page_id} : Set String).ncard ≤ ps.length := by
    rw [← List.coe_toFinset, Set.ncard_coe_Finset]
    calc (ps.filterMap Page.parent_page_id).toFinset.card
        ≤ (ps.filterMap Page.parent_page_id).length := List.toFinset_card_le _
      _ ≤ ps.length := List.length_filterMap_le _ _
  omega

theorem ancSet_ncard_lt {ps : List Page} {a b : String}
    (hA : Acyclic ps) (e : childOf ps a b) :
    (ancSet ps a).ncard < (ancSet ps b).ncard := by
  have hsub : ancSet ps a ⊆ ancSet ps b := by
    intro x hx
    exact Relation.TransGen.tail hx e
  have hss : ancSet ps a ⊂ ancSet ps b := by
    rw [ssubset_iff_subset_not_subset]
    refine ⟨hsub, fun hts => ?_⟩
    exact hA a (hts (Relation.TransGen.single e))
  exact Set.ncard_lt_ncard hss ancSet_finite

theorem ancestorsFuel_isSome {ps : List Page} (hA : Acyclic ps) :
    ∀ {n : Nat} {cur : Option Page} {acc : List Page},
      (∀ c, cur = some c → c ∈ ps ∧ (ancSet ps c.id).ncard < n) →
      (ancestorsFuel ps n cur acc).isSome := by
  intro n
  induction n with
  | zero =>
    intro cur acc hcur
    rcases hnext : ancNext ps cur with _ | parent
    · rw [ancestorsFuel_exit hnext]
      rfl
    · rcases ancNext_some hnext with ⟨c, rfl, _⟩
      exact absurd (hcur c rfl).2 (by omega)
  | succ n ih =>
    intro cur acc hcur
    rcases hnext : ancNext ps cur with _ | parent
    · rw [ancestorsFuel_exit hnext]
      rfl
    · rw [ancestorsFuel_step hnext]
      rcases ancNext_some hnext with ⟨c, rfl, pp, hpp, hemp, hf⟩
      refine ih ?_
      intro c2 hc2
      cases hc2
      have hedge : childOf ps parent.id c.id := ancNext_edge hnext (hcur c rfl).1
      have h1 := ancSet_ncard_lt hA hedge
      have h2 := (hcur c rfl).2
      exact ⟨List.mem_of_find?_eq_some hf, by omega⟩

/-- On an acyclic page set the ancestor walk terminates: fuel
(ps.length + 1) is never exhausted. -/
theorem getAncestors_total {ps : List Page} (hA : Acyclic ps) (pid : String) :
    (ancestorsFuel ps (ps.length + 1) (findPage ps pid) []).isSome := by
  refine ancestorsFuel_isSome hA ?_
  intro c _
  constructor
  · rcases hf : findPage ps pid with _ | c2
    · rename_i hc
      rw [hf] at hc
      cases hc
    · rename_i hc
      rw [hf] at hc
      cases hc
      exact List.mem_of_find?_eq_some hf
  · have := @ancSet_ncard_le ps c.id
    omega

theorem childOf_append {ps : List Page} {p : Page} {a b : String} :
    childOf (ps ++ [p]) a b ↔
      childOf ps a b ∨ (b = p.id ∧ p.parent_page_id = some a) := by
  constructor
  · rintro ⟨q, hq, hid, hpar⟩
    rcases List.mem_append.mp hq with hq | hq
    · exact Or.inl ⟨q, hq, hid, hpar⟩
    · simp only [List.mem_singleton] at hq
      subst hq
      exact Or.inr ⟨hid.symm, hpar⟩
  · rintro (⟨q, hq, hid, hpar⟩ | ⟨hb, hpar⟩)
    · exact ⟨q, List.mem_append_left _ hq, hid, hpar⟩
    · exact ⟨p, List.mem_append_right _ (by simp), hb.symm, hpar⟩

theorem acyclic_create {ps : List Page} {p : Page}
    (hA : Acyclic ps)
    (h2 : ∀ q ∈ ps, q.parent_page_id ≠ some p.id)
    (h3 : p.parent_page_id ≠ some p.id) :
    Acyclic (ps ++ [p]) := by
  rcases hpv : p.parent_page_id with _ | pv
  · -- the new page is a root: every edge of the extended set is an old edge
    intro x hx
    refine hA x (Relation.TransGen.mono ?_ hx)
    intro a b e
    rcases childOf_append.mp e with e | ⟨_, hpar⟩
    · exact e
    · rw [hpv] at hpar
      cases hpar
  · -- the only new edge points into the fresh id, which has no outgoing edge
    have key : ∀ a b, Relation.TransGen (childOf (ps ++ [p])) a b →
        Relation.TransGen (childOf ps) a b ∨
          (b = p.id ∧ Relation.ReflTransGen (childOf ps) a pv) := by
      intro a b h
      induction h with
      | single e =>
        rcases childOf_append.mp e with e | ⟨hb, hpar⟩
        · exact Or.inl (Relation.TransGen.single e)
        · rw [hpv] at hpar
          cases hpar
          exact Or.inr ⟨hb, Relation.ReflTransGen.refl⟩
      | tail h e ih =>
        rcases childOf_append.mp e with e | ⟨hb, hpar⟩
        · rcases ih with ih | ⟨hb2, _⟩
          · exact Or.inl (Relation.TransGen.tail ih e)
          · subst hb2
            rcases e with ⟨q, hq, _, hparq⟩
            exact absurd hparq (h2 q hq)
        · rw [hpv] at hpar
          cases hpar
          rcases ih with ih | ⟨hb2, _⟩
          · exact Or.inr ⟨hb, ih.to_reflTransGen⟩
          · subst hb2
            exact absurd hpv h3
    intro x hx
    rcases key x x hx with h | ⟨hb, hreach⟩
    · exact hA x h
    · subst hb
      rcases hreach.cases_head with heq | ⟨c, e, _⟩
      · rw [← heq] at hpv
        exact h3 hpv
      · rcases e with ⟨q, hq, _, hparq⟩
        exact absurd hparq (h2 q hq)

theorem childOf_replace {ps : List Page} {pid : String} {upd : Page}
    (hid : upd.id = pid) {a b : String} :
    childOf (ps.map (fun q => if q.id == pid then upd else q)) a b ↔
      ((b ≠ pid ∧ childOf ps a b) ∨
       (b = pid ∧ upd.parent_page_id = some a ∧ ∃ q ∈ ps, q.id = pid)) := by
  constructor
  · rintro ⟨q2, hq2, hid2, hpar2⟩
    rcases List.mem_map.mp hq2 with ⟨q0, hq0, heq⟩
    by_cases hq0id : q0.id = pid
    · rw [if_pos (by simp [hq0id])] at heq
      subst heq
      refine Or.inr ⟨by rw [← hid2, hid], hpar2, q0, hq0, hq0id⟩
    · rw [if_neg (by simp [hq0id])] at heq
      subst heq
      exact Or.inl ⟨by rw [← hid2]; exact hq0id, q0, hq0, hid2, hpar2⟩
  · rintro (⟨hne, q, hq, hidq, hparq⟩ | ⟨hb, hpar, q, hq, hidq⟩)
    · refine ⟨q, ?_, hidq, hparq⟩
      have himg : (fun q2 => if q2.id == pid then upd else q2) q = q := by
        simp only [beq_iff_eq, hidq]
        exact if_neg hne
      have hmem := List.mem_map_of_mem (fun q2 => if q2.id == pid then upd else q2) hq
      rw [himg] at hmem
      exact hmem
    · refine ⟨upd, ?_, by rw [hid, hb], hpar⟩
      have himg : (fun q2 => if q2.id == pid then upd else q2) q = upd := by
        simp [beq_iff_eq, hidq]
      have hmem := List.mem_map_of_mem (fun q2 => if q2.id == pid then upd else q2) hq
      rw [himg] at hmem
      exact hmem

theorem acyclic_move {ps : List Page} {pid : String} {upd : Page}
    (hA : Acyclic ps) (hid : upd.id = pid)
    (hnp : ∀ np, upd.parent_page_id = some np →
      ¬ Relation.ReflTransGen (childOf ps) pid np) :
    Acyclic (ps.map (fun q => if q.id == pid then upd else q)) := by
  have key : ∀ a b,
      Relation.TransGen (childOf (ps.map (fun q => if q.id == pid then upd else q))) a b →
      Relation.TransGen (childOf ps) a b ∨
        ∃ np, upd.parent_page_id = some np ∧
          Relation.ReflTransGen (childOf (ps.map (fun q => if q.id == pid then upd else q))) a np ∧
          Relation.ReflTransGen (childOf ps) pid b := by
    intro a b h
    induction h with
    | single e =>
      rcases (childOf_replace hid).mp e with ⟨_, e⟩ | ⟨hb, hpar, _⟩
      · exact Or.inl (Relation.TransGen.single e)
      · subst hb
        exact Or.inr ⟨a, hpar, Relation.ReflTransGen.refl, Relation.ReflTransGen.refl⟩
    | tail h e ih =>
      rcases (childOf_replace hid).mp e with ⟨_, e2⟩ | ⟨hb, hpar, _⟩
      · rcases ih with ih | ⟨np, hpar, h1, h2⟩
        · exact Or.inl (Relation.TransGen.tail ih e2)
        · exact Or.inr ⟨np, hpar, h1, Relation.ReflTransGen.tail h2 e2⟩
      · subst hb
        exact Or.inr ⟨_, hpar, h.to_reflTransGen, Relation.ReflTransGen.refl⟩
  have proj : ∀ a b,
      Relation.ReflTransGen (childOf (ps.map (fun q => if q.id == pid then upd else q))) a b →
      Relation.ReflTransGen (childOf ps) a b ∨ Relation.ReflTransGen (childOf ps) pid b := by
    intro a b h
    induction h with
    | refl => exact Or.inl Relation.ReflTransGen.refl
    | tail h e ih =>
      rcases (childOf_replace hid).mp e with ⟨_, e2⟩ | ⟨hb, _, _⟩
      · rcases ih with ih | ih
        · exact Or.inl (Relation.ReflTransGen.tail ih e2)
        · exact Or.inr (Relation.ReflTransGen.tail ih e2)
      · subst hb
        exact Or.inr Relation.ReflTransGen.refl
  intro x hx
  rcases key x x hx with h | ⟨np, hpar, h1, h2⟩
  · exact hA x h
  · rcases proj x np h1 with h3 | h3
    · exact hnp np hpar (Relation.ReflTransGen.trans h2 h3)
    · exact hnp np hpar h3

/-- Every child edge goes to a page id that is never the empty string
when the set has no empty ids; used for the truthiness edge case of the
move validation. -/
theorem reach_ne_empty {ps : List Page} (hne : ∀ q ∈ ps, q.id ≠ "")
    {y b : String} (h : Relation.ReflTransGen (childOf ps) y b) (hy : y ≠ "") :
    b ≠ "" := by
  induction h with
  | refl => exact hy
  | tail _ e _ =>
    rcases e with ⟨q, hq, hid, _⟩
    exact hid ▸ hne q hq

theorem wf_step {ps ps2 : List Page} (hwf : WFPages ps) (hstep : PStep ps ps2) :
    WFPages ps2 := by
  rcases hwf with ⟨hA, hne⟩
  cases hstep with
  | create uid title parent newId ts h1 h2 h3 h4 =>
    simp only [createPage]
    constructor
    · exact acyclic_create hA h2 h3
    · intro q hq
      rcases List.mem_append.mp hq with hq | hq
      · exact hne q hq
      · simp only [List.mem_singleton] at hq
        subst hq
        exact h4
  | move pid np ts =>
    rw [movePage]
    by_cases hself : np == some pid
    · rw [if_pos hself]
      exact ⟨hA, hne⟩
    · rw [if_neg hself]
      by_cases hdesc : truthyStr np && (descendantIds ps pid).contains (np.getD "")
      · rw [if_pos hdesc]
        exact ⟨hA, hne⟩
      · rw [if_neg hdesc]
        rw [updatePage]
        rcases hf : findPage ps pid with _ | p
        · exact ⟨hA, hne⟩
        · simp only []
          have hpid : p.id = pid := by
            have := List.find?_some hf
            rwa [beq_iff_eq] at this
          have hpmem : p ∈ ps := List.mem_of_find?_eq_some hf
          have hpidne : pid ≠ "" := hpid ▸ hne p hpmem
          have hupdid : (applyPageUpdates p (moveUpdates np) ts).id = p.id := rfl
          have hupdpar : (applyPageUpdates p (moveUpdates np) ts).parent_page_id = np := rfl
          constructor
          · refine acyclic_move hA (hupdid.trans hpid) ?_
            intro v hv hreach
            rw [hupdpar] at hv
            subst hv
            by_cases hvemp : v = ""
            · exact reach_ne_empty hne hreach hpidne hvemp
            · have hve : v.isEmpty = false := by
                rcases he : v.isEmpty with _ | _
                · rfl
                · exact absurd ((String.isEmpty_iff v).mp he) hvemp
              have htr : truthyStr (some v) = true := by
                simp [truthyStr, hve]
              have hmem : v ∈ descendantIds ps pid := (mem_descendantIds hA).mpr hreach
              have hcont : ((descendantIds ps pid).contains ((some v : Option String).getD "")) = true := by
                simp only [Option.getD_some]
                simp [List.elem_iff]
                exact hmem
              exact hdesc (by rw [htr, hcont]; rfl)
          · intro q hq
            rcases List.mem_map.mp hq with ⟨q0, hq0, heq⟩
            by_cases hq0id : q0.id = pid
            · rw [if_pos (by simp [hq0id])] at heq
              subst heq
              rw [hupdid, hpid]
              exact hpidne
            · rw [if_neg (by simp [hq0id])] at heq
              subst heq
              exact hne q0 hq0

theorem wf_reach {ps0 ps : List Page} (h : Relation.ReflTransGen PStep ps0 ps)
    (hwf : WFPages ps0) : WFPages ps := by
  induction h with
  | refl => exact hwf
  | tail _ e ih => exact wf_step ih e

theorem acyclic_nil : Acyclic ([] : List Page) :=
  acyclic_of_rank (fun _ => 0) (by intro q hq; cases hq)

/-- C1: for every sequence of create and move operations starting from
a cycle-free page set (with nonempty server-generated ids), and for
every page p in the resulting set, the ancestor chain of p never
contains p itself: no page is its own ancestor. -/
theorem c1_acyclicity_invariant (ps0 ps : List Page)
    (hops : Relation.ReflTransGen PStep ps0 ps)
    (hA : Acyclic ps0) (hids : ∀ q ∈ ps0, q.id ≠ "") :
    ∀ p ∈ ps, p ∉ getAncestors ps p.id := by
  have hwf := wf_reach hops ⟨hA, hids⟩
  intro p _ hmem
  exact hwf.1 p.id (getAncestors_mem p hmem)

theorem c1_acyclicity_invariant_witness :
    (Page.mk "a" "u" "T" none none none false 0 "t" "t") ∉
      getAncestors (createPage (some "u") [] "T" none "a" "t").pages "a" := by
  have h := c1_acyclicity_invariant [] (createPage (some "u") [] "T" none "a" "t").pages
    (Relation.ReflTransGen.single
      (PStep.create [] "u" "T" none "a" "t" (by simp) (by simp) (by decide) (by decide)))
    acyclic_nil (by intro q hq; cases hq)
  exact h (Page.mk "a" "u" "T" none none none false 0 "t" "t") (by decide)

theorem c5_cyc_loop : ∀ (n : Nat) (c : Page), (c = c5CycA ∨ c = c5CycB) →
    ∀ acc, ancestorsFuel c5CycPages n (some c) acc = none := by
  intro n
  induction n with
  | zero =>
    rintro c (rfl | rfl) acc
    · exact ancestorsFuel_stuck (show ancNext c5CycPages (some c5CycA) = some c5CycB by decide) acc
    · exact ancestorsFuel_stuck (show ancNext c5CycPages (some c5CycB) = some c5CycA by decide) acc
  | succ n ih =>
    rintro c (rfl | rfl) acc
    · rw [ancestorsFuel_step (show ancNext c5CycPages (some c5CycA) = some c5CycB by decide)]
      exact ih c5CycB (Or.inr rfl) _
    · rw [ancestorsFuel_step (show ancNext c5CycPages (some c5CycB) = some c5CycA by decide)]
      exact ih c5CycA (Or.inl rfl) _

/-- C5 counterexample: on a two-page set whose parent links form a
cycle, the getAncestors walk never reaches a terminating state, no
matter how much fuel it is given: the implementation tracks no visited
ids, so the claimed cycle guard does not exist. -/
theorem c5_counterexample :
    ¬ ∃ n : Nat, (ancestorsFuel c5CycPages n (findPage c5CycPages "p1") []).isSome := by
  rintro ⟨n, hn⟩
  have hf : findPage c5CycPages "p1" = some c5CycA := by decide
  rw [hf, c5_cyc_loop n c5CycA (Or.inl rfl) []] at hn
  cases hn

/-- C5 amended: ancestorsOf(p) terminates on every cycle-free page set;
fuel (number of pages + 1) is never exhausted, since the walk makes at
most depth(p) (at most number of pages) iterations. The implementation
does not track visited ids, and on an already-corrupt cyclic set the
walk does not terminate (c5_counterexample). -/
theorem c5_termination_amended (ps : List Page) (pid : String) (hA : Acyclic ps) :
    (ancestorsFuel ps (ps.length + 1) (findPage ps pid) []).isSome :=
  getAncestors_total hA pid

theorem c5_termination_amended_witness :
    (ancestorsFuel [Page.mk "r" "u" "T" none none none false 0 "t" "t"] 2
      (findPage [Page.mk "r" "u" "T" none none none false 0 "t" "t"] "r") []).isSome :=
  c5_termination_amended [Page.mk "r" "u" "T" none none none false 0 "t" "t"] "r"
    (acyclic_of_rank (fun _ => 0)
      (by intro q hq; simp only [List.mem_singleton] at hq; subst hq; trivial))

/-- C2: move(p, p) fails with the self InvalidMove error and performs
no mutation and no store call; and for every proper descendant d of p
(with a nonempty id, as ids are), move(p, d) fails with the descendant
InvalidMove error, again with no mutation and no store call. The self
check runs first: move(p, p) yields the self error even though p is a
member of its own computed descendant set. -/
theorem c2_move_rejection (ps : List Page) (pid ts : String) (hA : Acyclic ps) :
    movePage ps pid (some pid) ts =
      ⟨Except.error PagesError.invalidMoveSelf, ps, []⟩ ∧
    ∀ d, Relation.TransGen (childOf ps) pid d → d ≠ "" →
      movePage ps pid (some d) ts =
        ⟨Except.error PagesError.invalidMoveDescendant, ps, []⟩ := by
  constructor
  · rw [movePage, if_pos (by simp)]
  · intro d hd hdne
    have hdnepid : d ≠ pid := by
      intro h
      exact hA pid (h ▸ hd)
    have hve : d.isEmpty = false := by
      rcases he : d.isEmpty with _ | _
      · rfl
      · exact absurd ((String.isEmpty_iff d).mp he) hdne
    have hmem : d ∈ descendantIds ps pid :=
      (mem_descendantIds hA).mpr hd.to_reflTransGen
    rw [movePage, if_neg (by simp [hdnepid]), if_pos ?_]
    have hcont : ((descendantIds ps pid).contains ((some d : Option String).getD "")) = true := by
      simp only [Option.getD_some]
      simp [List.elem_iff]
      exact hmem
    rw [show truthyStr (some d) = true by simp [truthyStr, hve], hcont]
    rfl

theorem c2_move_rejection_witness :
    movePage [c2Root, c2Child] "r" (some "r") "t2" =
      ⟨Except.error PagesError.invalidMoveSelf, [c2Root, c2Child], []⟩ ∧
    movePage [c2Root, c2Child] "r" (some "c") "t2" =
      ⟨Except.error PagesError.invalidMoveDescendant, [c2Root, c2Child], []⟩ := by
  have hA : Acyclic [c2Root, c2Child] :=
    acyclic_of_rank (fun s => if s = "c" then 1 else 0)
      (by
        intro q hq
        rcases List.mem_cons.mp hq with rfl | hq2
        · trivial
        · rcases List.mem_cons.mp hq2 with rfl | hq3
          · simp [c2Child]
          · cases hq3)
  have h := c2_move_rejection [c2Root, c2Child] "r" "t2" hA
  refine ⟨h.1, h.2 "c" (Relation.TransGen.single ?_) (by decide)⟩
  exact ⟨c2Child, by decide, rfl, rfl⟩

/-- C7: page creation assigns position equal to the count of existing
pages whose parent equals the target parent (root group when the parent
argument is omitted or null), with the parent stored as given. Stated
for parent arguments that are null or a nonempty id (page ids are
nonempty), on caches whose stored parent references are never the empty
string. -/
theorem c7_create_position (uid title : String) (ps : List Page) (parent : Option String)
    (newId ts : String)
    (hp : parent = none ∨ ∃ np, parent = some np ∧ np ≠ "")
    (hclean : ∀ p ∈ ps, p.parent_page_id ≠ some "") :
    (createPage (some uid) ps title parent newId ts).res =
      Except.ok (Page.mk newId uid title none none parent false
        (Int.ofNat (ps.filter (fun p => p.parent_page_id == parent)).length) ts ts) := by
  rcases hp with rfl | ⟨np, rfl, hnp⟩
  · have hfilter : ps.filter (fun p => !truthyStr p.parent_page_id) =
        ps.filter (fun p => p.parent_page_id == (none : Option String)) := by
      refine List.filter_congr ?_
      intro p hpmem
      rcases hpar : p.parent_page_id with _ | s
      · rfl
      · have hs : s ≠ "" := by
          intro h
          exact hclean p hpmem (by rw [hpar, h])
        have hse : s.isEmpty = false := by
          rcases he : s.isEmpty with _ | _
          · rfl
          · exact absurd ((String.isEmpty_iff s).mp he) hs
        simp [truthyStr, hse]
    rw [← hfilter]
    rfl
  · have htr : truthyStr (some np) = true := by
      rcases he : np.isEmpty with _ | _
      · simp [truthyStr, he]
      · exact absurd ((String.isEmpty_iff np).mp he) hnp
    simp only [createPage, htr, if_true, normParent]

theorem c7_create_position_witness :
    (createPage (some "u") [] "Untitled" none "a" "t").res =
      Except.ok (Page.mk "a" "u" "Untitled" none none none false 0 "t" "t") := by
  have h := c7_create_position "u" "Untitled" [] none "a" "t" (Or.inl rfl)
    (by intro p hp; cases hp)
  simpa using h

/-- C8: each validation failure (unauthenticated page create, block
create with no page selected, invalid self move, invalid
move-into-descendant) returns its typed error with the local caches
exactly as before and an empty list of issued store calls. -/
theorem c8_validation_before_store (ps : List Page) (st : BlocksState)
    (title : String) (parent : Option String) (newId ts : String)
    (ty : BlockType) (content : String) (pos : Option Int)
    (pid np : String) (hnp : np ≠ "") (hnppid : np ≠ pid)
    (hmem : np ∈ descendantIds ps pid) :
    createPage none ps title parent newId ts =
      ⟨Except.error PagesError.notAuthenticated, ps, []⟩ ∧
    createBlock none st ty content pos newId ts =
      ⟨Except.error BlocksError.noPageSelected, st, []⟩ ∧
    movePage ps pid (some pid) ts =
      ⟨Except.error PagesError.invalidMoveSelf, ps, []⟩ ∧
    movePage ps pid (some np) ts =
      ⟨Except.error PagesError.invalidMoveDescendant, ps, []⟩ := by
  refine ⟨rfl, rfl, by rw [movePage, if_pos (by simp)], ?_⟩
  have hve : np.isEmpty = false := by
    rcases he : np.isEmpty with _ | _
    · rfl
    · exact absurd ((String.isEmpty_iff np).mp he) hnp
  rw [movePage, if_neg (by simp [hnppid]), if_pos ?_]
  have hcont : ((descendantIds ps pid).contains ((some np : Option String).getD "")) = true := by
    simp only [Option.getD_some]
    simp [List.elem_iff]
    exact hmem
  rw [show truthyStr (some np) = true by simp [truthyStr, hve], hcont]
  rfl

theorem c8_validation_before_store_witness :
    createPage none [c8Root, c8Child] "T" none "n" "t2" =
      ⟨Except.error PagesError.notAuthenticated, [c8Root, c8Child], []⟩ ∧
    createBlock none ⟨[], []⟩ BlockType.paragraph "" none "n" "t2" =
      ⟨Except.error BlocksError.noPageSelected, ⟨[], []⟩, []⟩ ∧
    movePage [c8Root, c8Child] "r8" (some "r8") "t2" =
      ⟨Except.error PagesError.invalidMoveSelf, [c8Root, c8Child], []⟩ ∧
    movePage [c8Root, c8Child] "r8" (some "c8") "t2" =
      ⟨Except.error PagesError.invalidMoveDescendant, [c8Root, c8Child], []⟩ :=
  c8_validation_before_store [c8Root, c8Child] ⟨[], []⟩ "T" none "n" "t2"
    BlockType.paragraph "" none "r8" "c8" (by decide) (by decide) (by decide)

/-- C9 counterexample: creating a page with an explicitly empty title
stores the empty string, not the default Untitled: the source passes
the title argument through to the insert unchanged, and the column
default of the schema applies only when the field is absent. -/
theorem c9_counterexample :
    (createPage (some "u") [] "" none "b1" "t1").res =
      Except.ok (Page.mk "b1" "u" "" none none none false 0 "t1" "t1") ∧
    ("" : String) ≠ "Untitled" := by
  constructor
  · rfl
  · decide

/-- C9 amended: a page created with the title argument omitted gets the
default title Untitled (the JavaScript default parameter); an explicit
title, the empty string included, is stored exactly as given: the code
does not replace an empty title with Untitled. -/
theorem c9_title_default_amended (uid : String) (ps : List Page)
    (parent : Option String) (newId ts title : String) :
    resultTitle (createPageDefault (some uid) ps parent newId ts) = some "Untitled" ∧
    resultTitle (createPage (some uid) ps title parent newId ts) = some title := by
  constructor
  · rfl
  · rfl

/-- C10: moving a page to the root (null target) never fails
validation: the self check and the descendant check both pass, and the
operation is exactly the update that sets parent_page_id to null; when
the page is present the update succeeds and stores a null parent. -/
theorem c10_moveToRoot (ps : List Page) (pid ts : String) :
    movePage ps pid none ts = updatePage ps pid (moveUpdates none) ts ∧
    (pid ∈ ps.map Page.id →
      (movePage ps pid none ts).res.isOk = true ∧
      resParent (movePage ps pid none ts) = some none) := by
  have heq : movePage ps pid none ts = updatePage ps pid (moveUpdates none) ts := by
    rw [movePage, if_neg (by simp), if_neg (by simp [truthyStr])]
  refine ⟨heq, ?_⟩
  intro hmem
  rw [heq]
  have hsome : (findPage ps pid).isSome := by
    apply List.find?_isSome.mpr
    rcases List.mem_map.mp hmem with ⟨p, hp, hid⟩
    exact ⟨p, hp, by simp [hid]⟩
  rcases hf : findPage ps pid with _ | p
  · rw [hf] at hsome
    cases hsome
  · rw [updatePage, hf]
    exact ⟨rfl, rfl⟩

theorem c10_moveToRoot_witness :
    (movePage [c10Page] "m" none "t2").res.isOk = true ∧
    resParent (movePage [c10Page] "m" none "t2") = some none :=
  (c10_moveToRoot [c10Page] "m" "t2").2 (by decide)

/-- C3: from blocks b0, b1, b2 at positions 0, 1, 2, a successful
insertAfter(b1, paragraph) succeeds and yields (as the position-ordered
page listing of the durable rows) the list b0, b1, new, b2, where the
new block has position 2 and b2 has been shifted by exactly one to
position 3. -/
theorem c3_insert_after_slot :
    (insertBlockAfter (some "pg") c3State "b1" BlockType.paragraph "bn" "t1").res =
      Except.ok c3New ∧
    listBlocks (insertBlockAfter (some "pg") c3State "b1" BlockType.paragraph "bn" "t1").st.store
        (some "pg") =
      [c3B0, c3B1, c3New,
        Block.mk "b2" "pg" BlockType.paragraph "gamma" false 3 "t0" "t1"] := by
  constructor
  · rfl
  · decide

/-- C4 counterexample: childrenOf does not re-sort. Two root pages at
positions 0 and 1; updating the position of the first to 5 leaves the
cache order unchanged, so childrenOf(null) returns members whose
positions are 5, 1: not ascending, and not reflecting the new
positions. -/
theorem c4_counterexample :
    ¬ List.Pairwise (fun p q : Page => p.position ≤ q.position)
      (getChildPages (updatePage [c4PgA, c4PgB] "a4" c4PosUpd "t1").pages none) := by
  decide

theorem sortByPosition_pairwise (l : List Block) :
    List.Pairwise posLe (sortByPosition l) :=
  List.sorted_insertionSort posLe l

theorem filter_map_replace {α : Type} (l : List α) (f : α → α) (p : α → Bool)
    (h1 : ∀ a, p a = true → f a = a) (h2 : ∀ a, p a = false → p (f a) = false) :
    (l.map f).filter p = l.filter p := by
  induction l with
  | nil => rfl
  | cons a l ih =>
    rcases hp : p a with _ | _
    · simp [List.filter_cons, hp, h2 a hp, ih]
    · simp [List.filter_cons, hp, h1 a hp, ih]

/-- C4 amended: the block listing and the block cache after a
successful update are always sorted by ascending position (the cache is
re-sorted on every merge, so a position-changing block update relocates
the item); a page update leaves the relative order of all other pages
unchanged, and a non-positional block update on a sorted cache leaves
the other blocks exactly in place; but childrenOf returns members in
cache order without sorting, so a position-changing page update can
leave childrenOf unsorted (c4_counterexample). -/
theorem c4_order_amended :
    (∀ (store : List Block) (pid : Option String),
      List.Pairwise posLe (listBlocks store pid)) ∧
    (∀ (st : BlocksState) (id : String) (u : BlockUpdates) (ts : String) (b : Block),
      (updateBlock st id u ts).res = Except.ok b →
      List.Pairwise posLe (updateBlock st id u ts).st.cache) ∧
    (∀ (ps : List Page) (id : String) (u : PageUpdates) (ts : String),
      (updatePage ps id u ts).pages.filter (fun p => !(p.id == id)) =
        ps.filter (fun p => !(p.id == id))) ∧
    (∀ (st : BlocksState) (id : String) (u : BlockUpdates) (ts : String),
      u.position = none →
      List.Pairwise posLe st.cache →
      (updateBlock st id u ts).st.cache.filter (fun b => !(b.id == id)) =
        st.cache.filter (fun b => !(b.id == id))) := by
  refine ⟨?_, ?_, ?_, ?_⟩
  · intro store pid
    cases pid with
    | none => simp [listBlocks]
    | some pg => exact sortByPosition_pairwise _
  · intro st id u ts b hres
    rcases hf : st.store.find? (fun b => b.id == id) with _ | bfound
    · rw [updateBlock, hf] at hres
      cases hres
    · rw [updateBlock, hf]
      exact sortByPosition_pairwise _
  · intro ps id u ts
    rcases hf : findPage ps id with _ | p
    · rw [updatePage, hf]
    · rw [updatePage, hf]
      simp only []
      refine filter_map_replace _ _ _ ?_ ?_
      · intro a ha
        rw [Bool.not_eq_true'] at ha
        simp [ha]
      · intro a ha
        rw [Bool.not_eq_false'] at ha
        have hpid : p.id = id := by
          have := List.find?_some hf
          rwa [beq_iff_eq] at this
        simp [ha, applyPageUpdates, hpid]
  · intro st id u ts _ hsort
    rcases hf : st.store.find? (fun b => b.id == id) with _ | bfound
    · rw [updateBlock, hf]
    · rw [updateBlock, hf]
      simp only []
      have hbid : bfound.id = id := by
        have := List.find?_some hf
        rwa [beq_iff_eq] at this
      have hmapfilter :
          (st.cache.map (fun q => if q.id == id then applyBlockUpdates bfound u ts else q)).filter
              (fun b => !(b.id == id)) =
            st.cache.filter (fun b => !(b.id == id)) := by
        refine filter_map_replace _ _ _ ?_ ?_
        · intro a ha
          rw [Bool.not_eq_true'] at ha
          simp [ha]
        · intro a ha
          rw [Bool.not_eq_false'] at ha
          simp [ha, applyBlockUpdates, hbid]
      have hcsort : List.Pairwise posLe (st.cache.filter (fun b => !(b.id == id))) :=
        hsort.filter _
      have hcsub : (st.cache.filter (fun b => !(b.id == id))).Sublist
          (st.cache.map (fun q => if q.id == id then applyBlockUpdates bfound u ts else q)) := by
        rw [← hmapfilter]
        exact List.filter_sublist _
      have hstable : (st.cache.filter (fun b => !(b.id == id))).Sublist
          (sortByPosition (st.cache.map (fun q => if q.id == id then applyBlockUpdates bfound u ts else q))) :=
        List.sublist_insertionSort hcsort hcsub
      have hidem : (st.cache.filter (fun b => !(b.id == id))).filter (fun b => !(b.id == id)) =
          st.cache.filter (fun b => !(b.id == id)) := by
        rw [List.filter_filter]
        exact List.filter_congr (fun a _ => Bool.and_self _)
      have hsubf : (st.cache.filter (fun b => !(b.id == id))).Sublist
          ((sortByPosition (st.cache.map (fun q => if q.id == id then applyBlockUpdates bfound u ts else q))).filter
            (fun b => !(b.id == id))) := by
        have := hstable.filter (fun b => !(b.id == id))
        rwa [hidem] at this
      have hperm :
          ((sortByPosition (st.cache.map (fun q => if q.id == id then applyBlockUpdates bfound u ts else q))).filter
            (fun b => !(b.id == id))).Perm
            (st.cache.filter (fun b => !(b.id == id))) := by
        have hp := (List.perm_insertionSort posLe
          (st.cache.map (fun q => if q.id == id then applyBlockUpdates bfound u ts else q))).filter
          (fun b => !(b.id == id))
        rw [hmapfilter] at hp
        exact hp
      exact (hsubf.eq_of_length hperm.length_eq.symm).symm

theorem c4_order_amended_witness :
    List.Pairwise posLe (updateBlock c4StW "x" c4UpdW "t1").st.cache ∧
    (updateBlock c4StW "x" c4UpdW "t1").st.cache.filter (fun b => !(b.id == "x")) =
      c4StW.cache.filter (fun b => !(b.id == "x")) := by
  constructor
  · exact c4_order_amended.2.1 c4StW "x" c4UpdW "t1"
      (applyBlockUpdates c4BlockX c4UpdW "t1") rfl
  · exact c4_order_amended.2.2.2 c4StW "x" c4UpdW "t1" rfl (by decide)

/-- C6: delete(p) on an acyclic page set removes from the page list
exactly the pages whose id lies in the closure containing p and every
transitive descendant of p, as computed before the delete was issued
(a page survives precisely when p does not reach it by child edges),
keeps every other page, and removes exactly the blocks whose page_id
lies in that closure (the cascade the schema performs in the store). -/
theorem c6_cascade_completeness (ps : List Page) (bs : List Block) (pid : String)
    (hA : Acyclic ps) :
    (∀ p ∈ ps, (p ∈ (deletePage ps bs pid).pages ↔
      ¬ Relation.ReflTransGen (childOf ps) pid p.id)) ∧
    (deletePage ps bs pid).pages.Sublist ps ∧
    (∀ b ∈ bs, (b ∈ (deletePage ps bs pid).blocks ↔
      ¬ Relation.ReflTransGen (childOf ps) pid b.page_id)) ∧
    (deletePage ps bs pid).blocks.Sublist bs := by
  refine ⟨?_, ?_, ?_, ?_⟩
  · intro p hp
    constructor
    · intro hpf hreach
      have hin : p.id ∈ descendantIds ps pid := (mem_descendantIds hA).mpr hreach
      have hcon : ((descendantIds ps pid).contains p.id) = true := by
        simp [List.elem_iff]
        exact hin
      have hpred := List.of_mem_filter hpf
      rw [hcon] at hpred
      cases hpred
    · intro hnot
      refine List.mem_filter.mpr ⟨hp, ?_⟩
      have hcon : ((descendantIds ps pid).contains p.id) = false := by
        rcases hc : ((descendantIds ps pid).contains p.id) with _ | _
        · rfl
        · have hin : p.id ∈ descendantIds ps pid := by
            rw [List.elem_iff] at hc
            exact hc
          exact absurd ((mem_descendantIds hA).mp hin) hnot
      rw [hcon]
      rfl
  · exact List.filter_sublist _
  · intro b hb
    constructor
    · intro hbf hreach
      have hin : b.page_id ∈ descendantIds ps pid := (mem_descendantIds hA).mpr hreach
      have hcon : ((descendantIds ps pid).contains b.page_id) = true := by
        simp [List.elem_iff]
        exact hin
      have hpred := List.of_mem_filter hbf
      rw [hcon] at hpred
      cases hpred
    · intro hnot
      refine List.mem_filter.mpr ⟨hb, ?_⟩
      have hcon : ((descendantIds ps pid).contains b.page_id) = false := by
        rcases hc : ((descendantIds ps pid).contains b.page_id) with _ | _
        · rfl
        · have hin : b.page_id ∈ descendantIds ps pid := by
            rw [List.elem_iff] at hc
            exact hc
          exact absurd ((mem_descendantIds hA).mp hin) hnot
      rw [hcon]
      rfl
  · exact List.filter_sublist _

theorem c6_cascade_completeness_witness :
    (deletePage [c6Root, c6Child, c6Other] c6Blocks "r6").pages.Sublist
      [c6Root, c6Child, c6Other] ∧
    (deletePage [c6Root, c6Child, c6Other] c6Blocks "r6").blocks.Sublist c6Blocks := by
  have hA : Acyclic [c6Root, c6Child, c6Other] :=
    acyclic_of_rank (fun s => if s = "c6" then 1 else 0)
      (by
        intro q hq
        rcases List.mem_cons.mp hq with rfl | hq2
        · trivial
        · rcases List.mem_cons.mp hq2 with rfl | hq3
          · simp [c6Child]
          · rcases List.mem_cons.mp hq3 with rfl | hq4
            · trivial
            · cases hq4)
  have h := c6_cascade_completeness [c6Root, c6Child, c6Other] c6Blocks "r6" hA
  exact ⟨h.2.1, h.2.2.2⟩

end DevNova
